import Mathlib

/-!
Verification of the category-moving text transformation of
`move_cats_to_bottom.py` (class `MoveCatsBot`).  Documents are modelled as
`List Char`; the functions below are direct embeddings of the Python
methods `split_into_cats`, `find_cat` and `move_cats`.
-/

set_option autoImplicit false

namespace MoveCats

/-- The whitespace characters removed by Python's `str.strip()`
(ASCII range; models `line.strip()`). -/
def isPyWS (c : Char) : Bool :=
  c == ' ' || c == '\t' || c == '\n' || c == '\r' || c == '\x0b' || c == '\x0c'

/-- `s.strip()`: remove leading and trailing whitespace. -/
def pyStrip (s : List Char) : List Char :=
  ((s.dropWhile isPyWS).reverse.dropWhile isPyWS).reverse

/-- `s.rstrip('\n')`: remove all trailing newline characters. -/
def rstripNewlines (s : List Char) : List Char :=
  (s.reverse.dropWhile (fun c => c == '\n')).reverse

/-- `text.split('\n')` (Python semantics: `"".split('\n') == [""]`,
a trailing separator yields a trailing empty piece). -/
def splitLines : List Char → List (List Char)
  | [] => [[]]
  | c :: rest =>
    if c == '\n' then [] :: splitLines rest
    else
      match splitLines rest with
      | [] => [[c]]
      | l :: ls => (c :: l) :: ls

/-- Helper for `line.split("]]")`: leftmost, non-overlapping splitting on
the two-character sequence `]]`; `acc` holds the current piece reversed. -/
def splitOnCloseAux : List Char → List Char → List (List Char)
  | [], acc => [acc.reverse]
  | ']' :: ']' :: rest, acc => acc.reverse :: splitOnCloseAux rest []
  | c :: rest, acc => splitOnCloseAux rest (c :: acc)

/-- The closing sequence `]]`. -/
def closeBrk : List Char := [']', ']']

/-- `split_into_cats(line)`: split on `]]` and re-append `]]` to every
piece (including the last). -/
def splitIntoCats (line : List Char) : List (List Char) :=
  (splitOnCloseAux line []).map (fun pc => pc ++ closeBrk)

/-- The literal `[[Category:`. -/
def catHeader : List Char := ['[', '[', 'C', 'a', 't', 'e', 'g', 'o', 'r', 'y', ':']

/-- Bracket characters, the class `[\[\]]` of the regex. -/
def isBracketC (c : Char) : Bool := c == '[' || c == ']'

/-- A full category marker `[[Category:<name>]]`. -/
def catMarker (nm : List Char) : List Char := catHeader ++ nm ++ closeBrk

/-- One attempt of the regex `(.*)(\[\[Category\:([^\[\]]*)\]\])(.*)` at a
fixed start position: succeed iff the suffix starts with `[[Category:`,
followed by the maximal run of non-bracket characters, followed by `]]`
(the greedy `[^\[\]]*` can only stop at the first bracket, and the final
`(.*)` always matches).  Returns group 2, the marker itself. -/
def catAt (s : List Char) : Option (List Char) :=
  if catHeader.isPrefixOf s then
    let rest := s.drop catHeader.length
    let nm := rest.takeWhile (fun c => !(isBracketC c))
    let after := rest.drop nm.length
    if closeBrk.isPrefixOf after then some (catMarker nm)
    else none
  else none

/-- `re.match` with a greedy leading `(.*)`: the chosen match is the one at
the largest start position whose preceding characters contain no newline
(`.` does not match `'\n'`); deeper positions are preferred. -/
def regexScan : List Char → Option (List Char)
  | [] => none
  | c :: rest =>
    match (if c == '\n' then none else regexScan rest) with
    | some r => some r
    | none => catAt (c :: rest)

/-- `find_cat(line)`: group 2 of
`re.match(r"(.*)(\[\[Category\:([^\[\]]*)\]\])(.*)", line)`, or `None`. -/
def find_cat (line : List Char) : Option (List Char) := regexScan line

/-- Helper for `s.replace(pat, "")` with a non-empty pattern `p :: ps`:
delete leftmost, non-overlapping occurrences.  The `fuel` argument is an
upper bound on the length of the remaining string (each step consumes at
least one character); it only makes the recursion structural. -/
def removeAllAux (p : Char) (ps : List Char) : Nat → List Char → List Char
  | 0, s => s
  | fuel + 1, s =>
    match s with
    | [] => []
    | c :: rest =>
      if (p :: ps).isPrefixOf (c :: rest) then
        removeAllAux p ps fuel (rest.drop ps.length)
      else c :: removeAllAux p ps fuel rest

/-- `s.replace(pat, "")`: delete every (leftmost, non-overlapping)
occurrence of `pat` from `s`. -/
def removeAll (s pat : List Char) : List Char :=
  match pat with
  | [] => s
  | p :: ps => removeAllAux p ps s.length s

/-- The mutable state of the reverse scan in `move_cats`:
`should_be_moving`, `detected_categories`, and the page text buffer
(`page.text`, globally edited while scanning). -/
structure ScanState where
  moving : Bool
  cats : List (List Char)
  text : List Char
deriving DecidableEq

/-- The body of the inner loop `for potential_cat in potential_cats[:-1]`:
flip `should_be_moving` when `line.strip() != detected_category` (a string
never equals `None`), then, if a category was detected and the updated
flag is set, record it and delete all its occurrences from the text. -/
def fragStep (line : List Char) (st : ScanState) (frag : List Char) : ScanState :=
  let detected := find_cat frag
  let moving := st.moving || decide (detected ≠ some (pyStrip line))
  match detected with
  | none => { st with moving := moving }
  | some c =>
    if moving then
      { moving := moving, cats := st.cats ++ [c], text := removeAll st.text c }
    else { st with moving := moving }

/-- One iteration of `for line in reversed(page_lines)`: run `fragStep`
over all fragments but the last, then flip `should_be_moving` if the last
fragment, stripped, is not exactly `]]`. -/
def lineStep (st : ScanState) (line : List Char) : ScanState :=
  let pcs := splitIntoCats line
  let st1 := pcs.dropLast.foldl (fragStep line) st
  if pyStrip (pcs.getLastD []) == closeBrk then st1
  else { st1 with moving := true }

/-- The whole reverse scan of `move_cats` over a page text. -/
def scanDoc (t : List Char) : ScanState :=
  ((splitLines t).reverse).foldl lineStep { moving := false, cats := [], text := t }

/-- The text transformation of `move_cats`: if no category was detected the
page is not saved (text unchanged); otherwise strip trailing newlines from
the edited text and append `'\n' + cat` for each detected category. -/
def moveCats (t : List Char) : List Char :=
  let st := scanDoc t
  if st.cats.isEmpty then t
  else st.cats.foldl (fun a c => a ++ '\n' :: c) (rstripNewlines st.text)

/-! ### Basic facts about the scan state -/

/-- The flag computed by `fragStep`, in closed form. -/
theorem fragStep_moving_eq (line : List Char) (st : ScanState) (frag : List Char) :
    (fragStep line st frag).moving
      = (st.moving || decide (find_cat frag ≠ some (pyStrip line))) := by
  unfold fragStep
  cases find_cat frag with
  | none => rfl
  | some c =>
    simp only
    split <;> rfl

/-- `fragStep` never clears the flag. -/
theorem fragStep_mono (line : List Char) (st : ScanState) (frag : List Char)
    (h : st.moving = true) : (fragStep line st frag).moving = true := by
  rw [fragStep_moving_eq, h, Bool.true_or]

/-- Folding `fragStep` over a fragment list never clears the flag. -/
theorem foldFrag_mono (line : List Char) :
    ∀ (fs : List (List Char)) (st : ScanState), st.moving = true →
      (fs.foldl (fragStep line) st).moving = true := by
  intro fs
  induction fs with
  | nil => intro st h; exact h
  | cons f fs ih =>
    intro st h
    exact ih (fragStep line st f) (fragStep_mono line st f h)

/-- `lineStep` never clears the flag. -/
theorem lineStep_mono (st : ScanState) (line : List Char)
    (h : st.moving = true) : (lineStep st line).moving = true := by
  unfold lineStep
  dsimp only
  split
  · exact foldFrag_mono line _ st h
  · rfl

/-- Folding `lineStep` over any list of lines never clears the flag. -/
theorem foldLine_mono :
    ∀ (ls : List (List Char)) (st : ScanState), st.moving = true →
      (ls.foldl lineStep st).moving = true := by
  intro ls
  induction ls with
  | nil => intro st h; exact h
  | cons l ls ih =>
    intro st h
    exact ih (lineStep st l) (lineStep_mono st l h)

/-- If a fragment leaves the flag cleared, it changed nothing at all. -/
theorem fragStep_id_of_not_moving (line : List Char) (st : ScanState) (frag : List Char)
    (h : (fragStep line st frag).moving = false) : fragStep line st frag = st := by
  have hm := fragStep_moving_eq line st frag
  rw [h] at hm
  have hst : st.moving = false := by
    cases hs : st.moving
    · rfl
    · rw [hs, Bool.true_or] at hm; exact absurd hm.symm (by simp)
  have hd : decide (find_cat frag ≠ some (pyStrip line)) = false := by
    cases hdec : decide (find_cat frag ≠ some (pyStrip line))
    · rfl
    · rw [hst, hdec, Bool.false_or] at hm; exact absurd hm.symm (by simp)
  have hfc : find_cat frag = some (pyStrip line) := by
    have := of_decide_eq_false hd
    exact not_not.mp this
  cases st with
  | mk mv cats text =>
    unfold fragStep
    rw [hfc]
    simp only [hfc, hst] at *
    simp [hst, hd]

/-- If the fragment fold leaves the flag cleared, it changed nothing. -/
theorem foldFrag_id_of_not_moving (line : List Char) :
    ∀ (fs : List (List Char)) (st : ScanState),
      (fs.foldl (fragStep line) st).moving = false →
      fs.foldl (fragStep line) st = st := by
  intro fs
  induction fs with
  | nil => intro st _; rfl
  | cons f fs ih =>
    intro st h
    rw [List.foldl_cons] at h ⊢
    have h1 : (fragStep line st f).moving = false := by
      cases hs : (fragStep line st f).moving
      · rfl
      · rw [foldFrag_mono line fs _ hs] at h; exact absurd h (by simp)
    rw [fragStep_id_of_not_moving line st f h1] at h ⊢
    exact ih st h

/-- If the whole line leaves the flag cleared, the line changed nothing. -/
theorem lineStep_id_of_not_moving (st : ScanState) (line : List Char)
    (h : (lineStep st line).moving = false) : lineStep st line = st := by
  unfold lineStep at h ⊢
  dsimp only at h ⊢
  split at h
  next hc =>
    rw [if_pos hc]
    exact foldFrag_id_of_not_moving line _ st h
  next hc =>
    simp at h

/-! ### Facts about the regex matcher -/

/-- A suffix not starting with `[` cannot start a match. -/
theorem catAt_none_of_ne_open (c : Char) (s : List Char) (h : c ≠ '[') :
    catAt (c :: s) = none := by
  have hb : (('[' : Char) == c) = false := beq_eq_false_iff_ne.mpr (Ne.symm h)
  unfold catAt catHeader
  simp [List.isPrefixOf, hb]

/-- A suffix whose second character is not `[` cannot start a match. -/
theorem catAt_none_of_second_ne (c₁ c₂ : Char) (s : List Char) (h : c₂ ≠ '[') :
    catAt (c₁ :: c₂ :: s) = none := by
  have hb : (('[' : Char) == c₂) = false := beq_eq_false_iff_ne.mpr (Ne.symm h)
  unfold catAt catHeader
  simp [List.isPrefixOf, hb]

/-- A string without `[` contains no match at any position. -/
theorem regexScan_none_of_no_open : ∀ (s : List Char), (∀ c ∈ s, c ≠ '[') →
    regexScan s = none := by
  intro s
  induction s with
  | nil => intro _; rfl
  | cons c rest ih =>
    intro h
    have hrest : regexScan rest = none := ih (fun x hx => h x (List.mem_cons_of_mem c hx))
    have hc : c ≠ '[' := h c (List.mem_cons_self c rest)
    simp [regexScan, hrest, catAt_none_of_ne_open c rest hc]

/-- Prepending a non-newline character keeps a deeper match (the greedy
leading group prefers the larger start position). -/
theorem regexScan_cons_some (c : Char) (rest r : List Char)
    (hc : c ≠ '\n') (h : regexScan rest = some r) :
    regexScan (c :: rest) = some r := by
  have hb : (c == '\n') = false := beq_eq_false_iff_ne.mpr hc
  simp [regexScan, hb, h]

/-- If nothing matches deeper, the match is attempted at the head. -/
theorem regexScan_cons_none (c : Char) (rest : List Char)
    (h : regexScan rest = none) :
    regexScan (c :: rest) = catAt (c :: rest) := by
  cases hcn : (c == '\n') <;> simp [regexScan, hcn, h]

/-- Prepending a newline-free string keeps a deeper match. -/
theorem regexScan_append_some : ∀ (pfx s r : List Char),
    (∀ c ∈ pfx, c ≠ '\n') → regexScan s = some r → regexScan (pfx ++ s) = some r := by
  intro pfx
  induction pfx with
  | nil => intro s r _ h; exact h
  | cons c p ih =>
    intro s r hp h
    have hd : regexScan (p ++ s) = some r :=
      ih s r (fun x hx => hp x (List.mem_cons_of_mem c hx)) h
    exact regexScan_cons_some c (p ++ s) r (hp c (List.mem_cons_self c p)) hd

/-- Every list is a `isPrefixOf` of itself followed by anything. -/
theorem isPrefixOf_append_self : ∀ (a b : List Char), a.isPrefixOf (a ++ b) = true := by
  intro a b
  induction a with
  | nil => simp
  | cons x xs ih => simp [List.isPrefixOf, ih]

/-- The greedy run `[^\[\]]*` over a bracket-free name stops exactly at the
closing bracket. -/
theorem takeWhile_nonbracket : ∀ (nm : List Char), (∀ c ∈ nm, isBracketC c = false) →
    ∀ (l : List Char), (nm ++ ']' :: l).takeWhile (fun c => !(isBracketC c)) = nm := by
  intro nm
  induction nm with
  | nil => intro _ l; simp [isBracketC]
  | cons x xs ih =>
    intro h l
    have hx : isBracketC x = false := h x (List.mem_cons_self x xs)
    simp [hx, ih (fun c hc => h c (List.mem_cons_of_mem x hc)) l]

/-- A well-formed marker at the start of a suffix is matched there,
whatever follows it. -/
theorem catAt_marker (nm post : List Char) (hnm : ∀ c ∈ nm, isBracketC c = false) :
    catAt (catMarker nm ++ post) = some (catMarker nm) := by
  have hsh : catMarker nm ++ post = catHeader ++ (nm ++ (']' :: ']' :: post)) := by
    simp [catMarker, closeBrk]
  rw [hsh]
  unfold catAt
  rw [if_pos (isPrefixOf_append_self catHeader (nm ++ (']' :: ']' :: post)))]
  dsimp only
  rw [List.drop_left, takeWhile_nonbracket nm hnm (']' :: post), List.drop_left]
  have hcb : closeBrk.isPrefixOf (']' :: ']' :: post) = true := by
    simp [closeBrk, List.isPrefixOf]
  rw [if_pos hcb]

/-- A non-bracket character is not `[`. -/
theorem ne_open_of_not_bracket (c : Char) (h : isBracketC c = false) : c ≠ '[' := by
  intro hc
  rw [hc] at h
  simp [isBracketC] at h

/-- The regex finds exactly the marker standing at the start of the text
when nothing after the marker can start another match. -/
theorem regexScan_marker (nm post : List Char)
    (hnm : ∀ c ∈ nm, isBracketC c = false) (hpost : ∀ c ∈ post, c ≠ '[') :
    regexScan (catMarker nm ++ post) = some (catMarker nm) := by
  have hne : ∀ c ∈ ('C' :: 'a' :: 't' :: 'e' :: 'g' :: 'o' :: 'r' :: 'y' :: ':'
      :: (nm ++ ']' :: ']' :: post)), c ≠ '[' := by
    intro c hc
    simp only [List.mem_cons, List.mem_append] at hc
    rcases hc with rfl | rfl | rfl | rfl | rfl | rfl | rfl | rfl | rfl | hnm' | rfl | rfl | hp
    · decide
    · decide
    · decide
    · decide
    · decide
    · decide
    · decide
    · decide
    · decide
    · exact ne_open_of_not_bracket c (hnm c hnm')
    · decide
    · decide
    · exact hpost c hp
  have htail2 := regexScan_none_of_no_open _ hne
  have htail1 : regexScan ('[' :: 'C' :: 'a' :: 't' :: 'e' :: 'g' :: 'o' :: 'r' :: 'y' :: ':'
      :: (nm ++ ']' :: ']' :: post)) = none := by
    rw [regexScan_cons_none _ _ htail2]
    exact catAt_none_of_second_ne '[' 'C' _ (by decide)
  have hfull : catMarker nm ++ post
      = '[' :: '[' :: 'C' :: 'a' :: 't' :: 'e' :: 'g' :: 'o' :: 'r' :: 'y' :: ':'
        :: (nm ++ ']' :: ']' :: post) := by
    simp [catMarker, catHeader, closeBrk]
  rw [hfull, regexScan_cons_none _ _ htail1, ← hfull]
  exact catAt_marker nm post hnm

/-- A suffix where the match succeeds makes the whole scan succeed. -/
theorem regexScan_isSome_of_catAt (s : List Char) (h : (catAt s).isSome = true) :
    (regexScan s).isSome = true := by
  cases s with
  | nil => simp [catAt, catHeader, List.isPrefixOf] at h
  | cons c rest =>
    cases hcn : (c == '\n') with
    | true => simpa [regexScan, hcn] using h
    | false =>
      cases hr : regexScan rest with
      | some r => simp [regexScan, hcn, hr]
      | none => simpa [regexScan, hcn, hr] using h

/-- Prepending a non-newline character preserves success of the scan. -/
theorem regexScan_cons_isSome (c : Char) (rest : List Char)
    (hc : c ≠ '\n') (h : (regexScan rest).isSome = true) :
    (regexScan (c :: rest)).isSome = true := by
  cases hr : regexScan rest with
  | none => rw [hr] at h; simp at h
  | some r => rw [regexScan_cons_some c rest r hc hr]; rfl

/-! ### Facts about the trailing-newline strip -/

/-- A list of newlines is a replicate. -/
theorem all_eq_replicate : ∀ (l : List Char), (∀ c ∈ l, c = '\n') →
    l = List.replicate l.length '\n' := by
  intro l
  induction l with
  | nil => intro _; rfl
  | cons x xs ih =>
    intro h
    have hx : x = '\n' := h x (List.mem_cons_self x xs)
    rw [List.length_cons, List.replicate_succ, hx,
      ← ih (fun c hc => h c (List.mem_cons_of_mem x hc))]

/-- Elements of a `takeWhile` satisfy the predicate. -/
theorem mem_takeWhile_pred (p : Char → Bool) :
    ∀ (l : List Char) (c : Char), c ∈ l.takeWhile p → p c = true := by
  intro l
  induction l with
  | nil => intro c hc; simp at hc
  | cons a t ih =>
    intro c hc
    cases hpa : p a with
    | false => simp [List.takeWhile_cons, hpa] at hc
    | true =>
      simp only [List.takeWhile_cons, hpa, if_true] at hc
      simp only [List.mem_cons] at hc
      rcases hc with rfl | hc
      · exact hpa
      · exact ih c hc

/-- The head of a `dropWhile` fails the predicate. -/
theorem dropWhile_head_false (p : Char → Bool) :
    ∀ (l : List Char) (c : Char) (l' : List Char),
      l.dropWhile p = c :: l' → p c = false := by
  intro l
  induction l with
  | nil => intro c l' h; simp at h
  | cons a t ih =>
    intro c l' h
    cases hpa : p a with
    | true => rw [List.dropWhile_cons, hpa] at h; exact ih c l' (by simpa using h)
    | false =>
      rw [List.dropWhile_cons, hpa] at h
      simp only [Bool.false_eq_true, if_false] at h
      injection h with h1 _
      rw [← h1]
      exact hpa

/-- `getLast?` of a reversed list is the head. -/
theorem getLast?_rev (l : List Char) : l.reverse.getLast? = l.head? := by
  cases l with
  | nil => rfl
  | cons a t => rw [List.reverse_cons, List.getLast?_concat]; rfl

/-- A string is its `rstrip('\n')` result followed by the stripped run of
newline characters. -/
theorem rstrip_decomp (s : List Char) :
    ∃ k, s = rstripNewlines s ++ List.replicate k '\n' := by
  have hall : ∀ c ∈ s.reverse.takeWhile (fun c => c == '\n'), c = '\n' := by
    intro c hc
    simpa using mem_takeWhile_pred (fun c => c == '\n') s.reverse c hc
  have hrep := all_eq_replicate _ hall
  refine ⟨(s.reverse.takeWhile (fun c => c == '\n')).length, ?_⟩
  conv_lhs => rw [← List.reverse_reverse s,
    ← List.takeWhile_append_dropWhile (fun c => c == '\n') s.reverse]
  rw [List.reverse_append]
  unfold rstripNewlines
  congr 1
  rw [← List.reverse_replicate]
  exact congrArg List.reverse hrep

/-- `rstrip('\n')` leaves no trailing newline. -/
theorem rstrip_no_trailing_newline (s : List Char) :
    (rstripNewlines s).getLast? ≠ some '\n' := by
  unfold rstripNewlines
  rw [getLast?_rev]
  cases hd : s.reverse.dropWhile (fun c => c == '\n') with
  | nil => simp
  | cons c l' =>
    have hc := dropWhile_head_false (fun c => c == '\n') s.reverse c l' hd
    simp only [List.head?, ne_eq, Option.some.injEq]
    intro hcontra
    rw [hcontra] at hc
    simp at hc

/-- Characters of a marker over a newline-free name are newline-free. -/
theorem marker_no_newline (nm : List Char) (h : ∀ c ∈ nm, c ≠ '\n') :
    ∀ c ∈ catMarker nm, c ≠ '\n' := by
  have hhd : ∀ x ∈ catHeader, x ≠ '\n' := by decide
  have hcl : ∀ x ∈ closeBrk, x ≠ '\n' := by decide
  intro c hc
  unfold catMarker at hc
  rcases List.mem_append.mp hc with h1 | hcl'
  · rcases List.mem_append.mp h1 with h2 | h3
    · exact hhd c h2
    · exact h c h3
  · exact hcl c hcl'

/-! ### The claims -/

/-- C1: the move operation is not idempotent.  On the document
`[[Cat[[Category:X]]egory:Y]] z` the first run detects `[[Category:X]]`
and removes it globally, which splices the new marker `[[Category:Y]]`
into the content region; the second run therefore relocates `Y` and
produces a different text.  The theorem evaluates the transformation at
this failing input. -/
theorem c1_move_not_idempotent :
    moveCats (("[[Cat[[Category:X]]egory:Y]] z").toList)
      = ("[[Category:Y]] z\n[[Category:X]]").toList
    ∧ moveCats (moveCats (("[[Cat[[Category:X]]egory:Y]] z").toList))
      = (" z\n[[Category:X]]\n[[Category:Y]]").toList
    ∧ moveCats (moveCats (("[[Cat[[Category:X]]egory:Y]] z").toList))
      ≠ moveCats (("[[Cat[[Category:X]]egory:Y]] z").toList) := by
  refine ⟨by decide, by decide, by decide⟩

/-- C2 counterexample: on the single-line document `foo [[Category:A]]`
the (unique) non-final fragment does yield the marker `[[Category:A]]`,
yet processing it flips the state from trailing to content, because the
stripped line is not exactly the marker; the final fragment `]]` strips to
`]]`, so no other rule fired.  This contradicts the claim that a fragment
yielding a category never flips the state. -/
theorem c2_counterexample :
    find_cat (("foo [[Category:A]]").toList) = some (("[[Category:A]]").toList)
    ∧ splitIntoCats (("foo [[Category:A]]").toList)
        = [("foo [[Category:A]]").toList, ("]]").toList]
    ∧ (fragStep (("foo [[Category:A]]").toList)
        ⟨false, [], ("foo [[Category:A]]").toList⟩
        (("foo [[Category:A]]").toList)).moving = true
    ∧ (scanDoc (("foo [[Category:A]]").toList)).moving = true := by
  refine ⟨by decide, by decide, by decide, by decide⟩

/-- C2 (amended): the fragment-level transition fires exactly when the
fragment's extraction result differs from the stripped line: the updated
flag is the old flag OR-ed with that disequality.  Hence a fragment that
fails to yield a category always flips the state, and a fragment that
yields one flips it too unless the stripped line is exactly the category
text. -/
theorem c2_flip_condition (line : List Char) (st : ScanState) (frag : List Char) :
    (fragStep line st frag).moving
      = (st.moving || decide (find_cat frag ≠ some (pyStrip line))) :=
  fragStep_moving_eq line st frag

/-- C3 counterexample: in `foo [[Category:A]]\nbar\n[[Category:A]]` the
bottom marker is classified trailing and only the content-embedded copy
enters the RelocationSet, yet the global removal deletes the trailing
occurrence from the text too: the output holds a single copy of the
marker instead of the untouched trailing occurrence plus the relocated
one. -/
theorem c3_counterexample :
    (scanDoc (("foo [[Category:A]]\nbar\n[[Category:A]]").toList)).cats
      = [("[[Category:A]]").toList]
    ∧ (scanDoc (("foo [[Category:A]]\nbar\n[[Category:A]]").toList)).text
      = ("foo \nbar\n").toList
    ∧ moveCats (("foo [[Category:A]]\nbar\n[[Category:A]]").toList)
      = ("foo \nbar\n[[Category:A]]").toList
    ∧ moveCats (("foo [[Category:A]]\nbar\n[[Category:A]]").toList)
      ≠ ("foo \nbar\n[[Category:A]]\n[[Category:A]]").toList := by
  refine ⟨by decide, by decide, by decide, by decide⟩

/-- C3 (amended): markers scanned while the state is still trailing are
not collected and cause no edits: a line that leaves the scan state
trailing leaves the entire state — RelocationSet and text — unchanged.
(They are however not guaranteed to survive in the output text when an
identical marker string is relocated from the content region, as the
counterexample shows.) -/
theorem c3_trailing_line_no_effect (st : ScanState) (line : List Char)
    (h : (lineStep st line).moving = false) : lineStep st line = st :=
  lineStep_id_of_not_moving st line h

theorem c3_witness :
    (lineStep ⟨false, [], ("[[Category:X]]").toList⟩ (("[[Category:X]]").toList)).moving
      = false
    ∧ lineStep ⟨false, [], ("[[Category:X]]").toList⟩ (("[[Category:X]]").toList)
      = ⟨false, [], ("[[Category:X]]").toList⟩ :=
  ⟨by decide,
   c3_trailing_line_no_effect ⟨false, [], ("[[Category:X]]").toList⟩
     (("[[Category:X]]").toList) (by decide)⟩

/-- C4 counterexample: the fragment `[[Foo]] [[Category:A]]` has an extra
bracket pair before the single category marker, yet `find_cat` matches
(the leading `(.*)` group accepts bracket characters) and returns the
marker, contradicting the claim that such fragments fail to match. -/
theorem c4_counterexample :
    find_cat (("[[Foo]] [[Category:A]]").toList) = some (("[[Category:A]]").toList)
    ∧ find_cat (("[[Foo]] [[Category:A]]").toList) ≠ none := by
  refine ⟨by decide, by decide⟩

/-- C4 (amended): the match is anchored only at the start of the
fragment, and the `(.*)` context groups accept bracket characters, so a
fragment carrying a well-formed marker matches no matter what brackets
surround it — `find_cat` returns a marker for every fragment of the form
`pre ++ [[Category:nm]] ++ post` with a newline-free `pre` and a
bracket-free `nm`; only brackets inside the name region make a candidate
fail. -/
theorem c4_extra_brackets_still_match (pre nm post : List Char)
    (hpre : ∀ c ∈ pre, c ≠ '\n') (hnm : ∀ c ∈ nm, isBracketC c = false) :
    (find_cat (pre ++ catMarker nm ++ post)).isSome = true := by
  induction pre with
  | nil =>
    show (regexScan ([] ++ catMarker nm ++ post)).isSome = true
    rw [List.nil_append]
    refine regexScan_isSome_of_catAt _ ?_
    rw [catAt_marker nm post hnm]
    rfl
  | cons c p ih =>
    have hc : c ≠ '\n' := hpre c (List.mem_cons_self c p)
    have ih' : (regexScan (p ++ catMarker nm ++ post)).isSome = true :=
      ih (fun x hx => hpre x (List.mem_cons_of_mem c hx))
    show (regexScan ((c :: p) ++ catMarker nm ++ post)).isSome = true
    rw [List.cons_append, List.cons_append]
    exact regexScan_cons_isSome c _ hc ih'

theorem c4_witness :
    (∀ c ∈ ("[[Foo]] ").toList, c ≠ '\n')
    ∧ (∀ c ∈ ("A").toList, isBracketC c = false)
    ∧ (find_cat (("[[Foo]] ").toList ++ catMarker (("A").toList)
        ++ ([] : List Char))).isSome = true :=
  ⟨by decide, by decide,
   c4_extra_brackets_still_match (("[[Foo]] ").toList) (("A").toList) []
     (by decide) (by decide)⟩

/-- C5: on the four-line document with categories `A`, `B`, `C` embedded
top to bottom in content, the move operation removes the three markers
from the body and appends them in reverse-scan discovery order `C, B, A`,
with nothing after them. -/
theorem c5_order_preservation :
    moveCats (("Some text [[Category:A]]\nMore text\n[[Category:B]]\nFinal text [[Category:C]]").toList)
      = ("Some text \nMore text\n\nFinal text \n[[Category:C]]\n[[Category:B]]\n[[Category:A]]").toList := by
  decide

/-- C6 counterexample: the line `[[Category:A]] [[Category:B]]` contains
two well-formed markers; the greedy leading group makes the anchored
match pick the rightmost one, so `find_cat` returns `[[Category:B]]`,
not the first marker `[[Category:A]]` claimed by the contract. -/
theorem c6_counterexample :
    find_cat (("[[Category:A]] [[Category:B]]").toList)
      = some (("[[Category:B]]").toList)
    ∧ ("[[Category:B]]").toList ≠ ("[[Category:A]]").toList := by
  refine ⟨by decide, by decide⟩

/-- C6 (amended): `find_cat` returns the LAST well-formed category marker
of the line (the greedy leading `(.*)` selects the rightmost match):
for a line `pre ++ [[Category:nm1]] ++ mid ++ [[Category:nm2]] ++ post`
with newline-free `pre`, `nm1`, `mid`, bracket-free `nm1`, `nm2` and
`[`-free `post`, the result is exactly the second marker.  (A line with a
single marker and no other bracket content is the special case `nm1`
absent, still covered by `regexScan_marker`.) -/
theorem c6_returns_last_marker (pre nm1 mid nm2 post : List Char)
    (hpre : ∀ c ∈ pre, c ≠ '\n')
    (hnm1 : ∀ c ∈ nm1, isBracketC c = false ∧ c ≠ '\n')
    (hmid : ∀ c ∈ mid, c ≠ '\n')
    (hnm2 : ∀ c ∈ nm2, isBracketC c = false)
    (hpost : ∀ c ∈ post, c ≠ '[') :
    find_cat (pre ++ catMarker nm1 ++ mid ++ catMarker nm2 ++ post)
      = some (catMarker nm2) := by
  have hM := regexScan_marker nm2 post hnm2 hpost
  show regexScan (pre ++ catMarker nm1 ++ mid ++ catMarker nm2 ++ post)
      = some (catMarker nm2)
  have hassoc : pre ++ catMarker nm1 ++ mid ++ catMarker nm2 ++ post
      = (pre ++ catMarker nm1 ++ mid) ++ (catMarker nm2 ++ post) := by
    simp [List.append_assoc]
  rw [hassoc]
  refine regexScan_append_some _ _ _ ?_ hM
  intro c hc
  rcases List.mem_append.mp hc with h1 | hcm
  · rcases List.mem_append.mp h1 with h2 | h3
    · exact hpre c h2
    · exact marker_no_newline nm1 (fun x hx => (hnm1 x hx).2) c h3
  · exact hmid c hcm

theorem c6_witness :
    (∀ c ∈ ([] : List Char), c ≠ '\n')
    ∧ (∀ c ∈ ("A").toList, isBracketC c = false ∧ c ≠ '\n')
    ∧ (∀ c ∈ (" ").toList, c ≠ '\n')
    ∧ (∀ c ∈ ("B").toList, isBracketC c = false)
    ∧ (∀ c ∈ ([] : List Char), c ≠ '[')
    ∧ find_cat (([] : List Char) ++ catMarker (("A").toList) ++ (" ").toList
        ++ catMarker (("B").toList) ++ ([] : List Char))
      = some (catMarker (("B").toList)) :=
  ⟨by decide, by decide, by decide, by decide, by decide,
   c6_returns_last_marker [] (("A").toList) ((" ").toList) (("B").toList) []
     (by decide) (by decide) (by decide) (by decide) (by decide)⟩

/-- C7: on `Some content.\n[[Category:X]]\n[[Category:Y]]` both markers
lie in the trailing run, so the scan collects nothing and the move
operation leaves the document unmodified. -/
theorem c7_trailing_only_no_change :
    (scanDoc (("Some content.\n[[Category:X]]\n[[Category:Y]]").toList)).cats = []
    ∧ moveCats (("Some content.\n[[Category:X]]\n[[Category:Y]]").toList)
      = ("Some content.\n[[Category:X]]\n[[Category:Y]]").toList := by
  refine ⟨by decide, by decide⟩

/-- C8: when a fragment yields a category while the state is already
content, the step appends that category to the RelocationSet and deletes
every occurrence of the exact marker string from the whole text buffer
(`removeAll` embeds Python's global `str.replace(cat, "")`), not only
from the line being scanned. -/
theorem c8_global_removal (line frag : List Char) (st : ScanState) (c : List Char)
    (h1 : st.moving = true) (h2 : find_cat frag = some c) :
    fragStep line st frag
      = { moving := true, cats := st.cats ++ [c], text := removeAll st.text c } := by
  unfold fragStep
  rw [h2, h1]
  simp

theorem c8_witness :
    (⟨true, [], ("x [[Category:Q]] y\n[[Category:Q]]").toList⟩ : ScanState).moving = true
    ∧ find_cat (("x [[Category:Q]]").toList) = some (("[[Category:Q]]").toList)
    ∧ fragStep (("x [[Category:Q]] y").toList)
        ⟨true, [], ("x [[Category:Q]] y\n[[Category:Q]]").toList⟩
        (("x [[Category:Q]]").toList)
      = { moving := true, cats := ([] : List (List Char)) ++ [("[[Category:Q]]").toList],
          text := removeAll (("x [[Category:Q]] y\n[[Category:Q]]").toList)
            (("[[Category:Q]]").toList) } :=
  ⟨rfl, by decide,
   c8_global_removal (("x [[Category:Q]] y").toList) (("x [[Category:Q]]").toList)
     ⟨true, [], ("x [[Category:Q]] y\n[[Category:Q]]").toList⟩
     (("[[Category:Q]]").toList) rfl (by decide)⟩

/-- C9 counterexample: in `a [[Category:X]]\n \n` the scan treats the
whitespace-only line as trailing, but only trailing NEWLINE characters
are stripped before appending, so the blank line made of a space
survives and the relocated block does not directly follow the last
non-blank content. -/
theorem c9_counterexample :
    moveCats (("a [[Category:X]]\n \n").toList) = ("a \n \n[[Category:X]]").toList
    ∧ ("a \n \n[[Category:X]]").toList ≠ ("a \n[[Category:X]]").toList := by
  refine ⟨by decide, by decide⟩

/-- C9 (amended): before the relocated block is appended, exactly the
trailing run of newline characters is removed: the edited text decomposes
as its `rstrip('\n')` result followed by some replicate of `'\n'`, the
stripped text has no trailing newline, and the output is the stripped
text with `'\n' ++ cat` appended per collected category.  Trailing
whitespace-only (non-empty) lines are not collapsed. -/
theorem c9_strip_exactly_newlines (t : List Char) (h : (scanDoc t).cats ≠ []) :
    moveCats t
      = (scanDoc t).cats.foldl (fun a c => a ++ '\n' :: c)
          (rstripNewlines (scanDoc t).text)
    ∧ (rstripNewlines (scanDoc t).text).getLast? ≠ some '\n'
    ∧ ∃ k, (scanDoc t).text = rstripNewlines (scanDoc t).text
        ++ List.replicate k '\n' := by
  refine ⟨?_, rstrip_no_trailing_newline _, rstrip_decomp _⟩
  cases hc : (scanDoc t).cats with
  | nil => exact absurd hc h
  | cons a l =>
    unfold moveCats
    dsimp only
    rw [hc]
    simp

theorem c9_witness :
    (scanDoc (("b [[Category:Z]]").toList)).cats ≠ []
    ∧ (moveCats (("b [[Category:Z]]").toList)
        = (scanDoc (("b [[Category:Z]]").toList)).cats.foldl
            (fun a c => a ++ '\n' :: c)
            (rstripNewlines (scanDoc (("b [[Category:Z]]").toList)).text)
      ∧ (rstripNewlines (scanDoc (("b [[Category:Z]]").toList)).text).getLast?
          ≠ some '\n'
      ∧ ∃ k, (scanDoc (("b [[Category:Z]]").toList)).text
          = rstripNewlines (scanDoc (("b [[Category:Z]]").toList)).text
            ++ List.replicate k '\n') :=
  ⟨by decide, c9_strip_exactly_newlines (("b [[Category:Z]]").toList) (by decide)⟩

/-- C10 counterexample: on the document `[[Category:X]]` every line is
trailing-eligible, so the scan ends with the state still trailing: the
flag never flips, contradicting the claim that the transition occurs
exactly once per document scan. -/
theorem c10_counterexample :
    (scanDoc (("[[Category:X]]").toList)).moving = false
    ∧ (scanDoc (("[[Category:X]]").toList)).cats = [] := by
  refine ⟨by decide, by decide⟩

/-- C10 (amended): the scan state is monotone — once the flag is set it
is never cleared by any further processed line, so the trailing-to-content
transition happens AT MOST once per scan (and not at all on an
all-trailing document, as the counterexample shows). -/
theorem c10_state_monotone (ls : List (List Char)) (st : ScanState)
    (h : st.moving = true) : (ls.foldl lineStep st).moving = true :=
  foldLine_mono ls st h

theorem c10_witness :
    (⟨true, [], []⟩ : ScanState).moving = true
    ∧ ([("a").toList].foldl lineStep ⟨true, [], []⟩).moving = true :=
  ⟨rfl, c10_state_monotone [("a").toList] ⟨true, [], []⟩ rfl⟩

end MoveCats
